import Mathlib

/-!
Verification development for the NLP-based networking policy compiler.

The Lean definitions below are shallow embeddings of the Python sources:
  backend/alias_manager.py, backend/nlp.py, service_mapper.py,
  backend/policy_components/rule_interpreter.py,
  backend/policy_components/iptables_command_builder.py, policy_engine.py.
Python dictionaries with string keys are embedded as functions
String -> Option String, Python None as Option.none, and Python
truthiness of optional strings (None and the empty string are falsy)
as pyTruthy.
-/

/-- Python truthiness of an optional string: None and the empty string
are falsy, every other string is truthy. -/
def pyTruthy : Option String → Bool
  | none => false
  | some s => s != ""

theorem pyTruthy_some_iff (s : String) : pyTruthy (some s) = true ↔ s ≠ "" := by
  simp [pyTruthy]

theorem pyTruthy_none : pyTruthy none = false := rfl

/-- Python str.lower, embedded character by character so that concrete
instances evaluate inside the kernel. -/
def toLowerStr (s : String) : String := ⟨s.data.map Char.toLower⟩

/-- Splits a character list at every dot, like the grouping of the
IP_ADDRESS regex. -/
def splitOnDot : List Char → List (List Char)
  | [] => [[]]
  | c :: rest =>
    match splitOnDot rest with
    | [] => if c = '.' then [[], []] else [[c]]
    | h :: t => if c = '.' then [] :: h :: t else (c :: h) :: t

/-! ## service_mapper.py -/

/-- One protocol/port dictionary from services.json, as consumed by
get_service_params: keys proto (string) and dport (number), both optional. -/
structure SvcParam where
  proto : Option String
  dport : Option Nat
deriving DecidableEq

/-- The loaded services.json content (the module cache _service_mappings).
A key maps to some none when its definition is present but not a list
(the malformed case of get_service_params), and to some (some l) when it
is the list l.  A failed load behaves as the empty mapping. -/
def SvcMappings : Type := String → Option (Option (List SvcParam))

/-- Embeds service_mapper.get_service_params (service_mapper.py lines 46-78):
None input gives None; a missing key gives None; a non-list definition is
treated as not found; otherwise the list is returned (possibly empty). -/
def get_service_params (mappings : SvcMappings) (serviceName : Option String) :
    Option (List SvcParam) :=
  match serviceName with
  | none => none
  | some name =>
    match mappings (toLowerStr name) with
    | none => none
    | some none => none
    | some (some l) => some l

/-- Modelled from the spec: the services.json catalog file is not part of
src/, so its content is taken from the spec (§8 scenarios: ssh = tcp/22,
http = tcp/80, dns = udp/53 and tcp/53) and the builder unit tests
(ping = icmp with no port). -/
def specServices : List (String × List SvcParam) :=
  [("ssh", [⟨some "tcp", some 22⟩]),
   ("http", [⟨some "tcp", some 80⟩]),
   ("dns", [⟨some "udp", some 53⟩, ⟨some "tcp", some 53⟩]),
   ("ping", [⟨some "icmp", none⟩])]

/-- Modelled from the spec: the spec catalog packaged as loaded mappings. -/
def specMappings : SvcMappings :=
  fun name => (specServices.lookup name).map some

/-! ## iptables_command_builder.py -/

/-- ACTION_TO_IPTABLES_TARGET from iptables_command_builder.py lines 11-14. -/
def actionToIptablesTarget : List (String × String) :=
  [("block", "DROP"), ("deny", "DROP"), ("drop", "DROP"), ("reject", "DROP"),
   ("allow", "ACCEPT"), ("permit", "ACCEPT"), ("accept", "ACCEPT")]

/-- The string members of SERVICES_TO_IGNORE (the None member of the Python
set is only reachable by the logging check on line 47, not by the lookup on
line 65, which lowercases a truthy string first). -/
def servicesToIgnore : List String := ["any", "all", "traffic"]

/-- The dictionary handed to IPTablesCommandBuilder.build_commands. -/
structure BuilderRule where
  chain : Option String
  action : Option String
  service : Option String
  source_ip : Option String
  destination_ip : Option String
deriving DecidableEq

/-- base_cmd_parts of build_commands (lines 57-61): iptables -A chain,
then -s source and -d destination when present. -/
def baseCmdParts (chain : String) (src dst : Option String) : List String :=
  ["iptables", "-A", chain]
    ++ (if pyTruthy src then ["-s", src.getD ""] else [])
    ++ (if pyTruthy dst then ["-d", dst.getD ""] else [])

/-- The protocol and port arguments contributed by one catalog entry
(build_commands lines 77-85): -p proto when proto is truthy, and
--dport only when the protocol lowercases to tcp or udp and dport is not
None; a dport with any other protocol is dropped (only warned about). -/
def protoPortParts (p : SvcParam) : List String :=
  if pyTruthy p.proto then
    ["-p", p.proto.getD ""]
      ++ (if (toLowerStr (p.proto.getD "") = "tcp" ∨ toLowerStr (p.proto.getD "") = "udp")
              ∧ p.dport.isSome then
            ["--dport", toString (p.dport.getD 0)]
          else [])
  else []

/-- Embeds IPTablesCommandBuilder.build_commands (lines 21-109), with the
service catalog passed in place of the service_mapper module state. -/
def build_commands (mappings : SvcMappings) (r : BuilderRule) : List String :=
  if ¬ (pyTruthy r.action ∧ pyTruthy r.chain) then []
  else
    match actionToIptablesTarget.lookup (toLowerStr (r.action.getD "")) with
    | none => []
    | some tact =>
      let base := baseCmdParts (r.chain.getD "") r.source_ip r.destination_ip
      let cmds :=
        if pyTruthy r.service ∧ toLowerStr (r.service.getD "") ∈ servicesToIgnore then
          [String.intercalate " " (base ++ ["-j", tact])]
        else
          match get_service_params mappings r.service with
          | some (p :: ps) =>
            (p :: ps).map (fun q => String.intercalate " " (base ++ protoPortParts q ++ ["-j", tact]))
          | _ =>
            if pyTruthy r.source_ip ∨ pyTruthy r.destination_ip then
              [String.intercalate " " (base ++ ["-j", tact])]
            else []
      if cmds = [] ∧ (pyTruthy r.source_ip ∨ pyTruthy r.destination_ip) then
        [String.intercalate " " (base ++ ["-j", tact])]
      else cmds

/-! ## rule_interpreter.py -/

/-- The dictionary produced by nlp.parse_single (nlp.py lines 255-259). -/
structure NlpRule where
  action : Option String
  service : Option String
  source_ip : Option String
  destination_ip : Option String
  target_device_ip : Option String
deriving DecidableEq

/-- The dictionary returned by
RuleInterpreter.determine_final_target_and_chain (lines 111-119), without
the original_nlp_rule context field. -/
structure InterpretedRule where
  final_target_ip : Option String
  chain : String
  action : Option String
  service : Option String
  source_ip : Option String
  destination_ip : Option String
deriving DecidableEq

/-- The explicitness heuristic of determine_final_target_and_chain
(rule_interpreter.py lines 38-47): a present target counts as explicit
when it differs from a lone source, from a lone destination, from both of
a present pair, or when no address is present at all. -/
def nlpTargetWasExplicit (src dst tgt : Option String) : Prop :=
  pyTruthy tgt ∧
    ((pyTruthy src ∧ pyTruthy dst ∧ (pyTruthy src ∧ tgt ≠ src) ∧ (pyTruthy dst ∧ tgt ≠ dst)) ∨
     (pyTruthy src ∧ ¬ pyTruthy dst ∧ (pyTruthy src ∧ tgt ≠ src)) ∨
     (pyTruthy dst ∧ ¬ pyTruthy src ∧ (pyTruthy dst ∧ tgt ≠ dst)) ∨
     (¬ pyTruthy src ∧ ¬ pyTruthy dst))

instance (src dst tgt : Option String) : Decidable (nlpTargetWasExplicit src dst tgt) := by
  unfold nlpTargetWasExplicit; infer_instance

/-- The chain determination block of determine_final_target_and_chain
(rule_interpreter.py lines 70-107), as a function of the final target and
the source and destination addresses.  The destination-only branch and
the no-address branch both leave the INPUT default in place. -/
def interpreterChain (finalTgt src dst : Option String) : String :=
  if finalTgt = src ∧ pyTruthy dst then "OUTPUT"
  else if finalTgt = dst ∧ pyTruthy src then "INPUT"
  else if pyTruthy src ∧ pyTruthy dst then
    (if finalTgt ≠ src ∧ finalTgt ≠ dst then "FORWARD"
     else if finalTgt = src then "OUTPUT"
     else "INPUT")
  else if pyTruthy src then
    (if finalTgt = src then "OUTPUT" else "INPUT")
  else "INPUT"

/-- Embeds RuleInterpreter.determine_final_target_and_chain
(rule_interpreter.py lines 10-119): the caller-preferred target is applied
when the parsed target is absent or judged implicit; the chain is then
chosen from the final target and the source/destination addresses.  The
two trailing source branches (destination only, and no address at all)
both leave the INPUT default in place (lines 90-107). -/
def determine_final_target_and_chain (nlpRule : NlpRule)
    (preferredTargetIp : Option String := none) : Option InterpretedRule :=
  let src := nlpRule.source_ip
  let dst := nlpRule.destination_ip
  let tgt := nlpRule.target_device_ip
  let finalTgt :=
    if pyTruthy preferredTargetIp then
      if ¬ pyTruthy tgt then preferredTargetIp
      else if ¬ nlpTargetWasExplicit src dst tgt then preferredTargetIp
      else tgt
    else tgt
  if ¬ pyTruthy finalTgt then none
  else
    some { final_target_ip := finalTgt, chain := interpreterChain finalTgt src dst,
           action := nlpRule.action, service := nlpRule.service,
           source_ip := src, destination_ip := dst }

/-- Repackages an interpreted rule for the command builder. -/
def toBuilderRule (ir : InterpretedRule) : BuilderRule :=
  { chain := some ir.chain, action := ir.action, service := ir.service,
    source_ip := ir.source_ip, destination_ip := ir.destination_ip }

/-! ## policy_engine.py chain determination -/

/-- Embeds the chain determination block of
policy_engine.parse_and_generate_commands (policy_engine.py lines 134-151).
Unlike the rule interpreter, the destination-only branch there returns
OUTPUT when the final target equals the destination. -/
def policyEngineChain (finalTgt src dst : Option String) : String :=
  if finalTgt = src ∧ pyTruthy dst then "OUTPUT"
  else if finalTgt = dst ∧ pyTruthy src then "INPUT"
  else if pyTruthy src ∧ pyTruthy dst then "FORWARD"
  else if pyTruthy src then
    (if finalTgt = src then "OUTPUT" else "INPUT")
  else if pyTruthy dst then
    (if finalTgt = dst then "OUTPUT" else "INPUT")
  else "INPUT"

/-! ## nlp.py

The spaCy pipeline is external: tokenization, lemmas, stop-word and
punctuation flags come from the en_core_web_sm model.  A clause is
therefore embedded as the list of its tokens, each carrying the model
attributes the source reads (text, lemma, is_alpha, is_stop, is_punct).
The token-level algorithms of nlp.py are embedded faithfully over that
list.  The IP matcher is deterministic (a regex on the token text) and is
embedded as a function on the text. -/

/-- One spaCy token as consumed by nlp.py: its text and the model
attributes the parser reads. -/
structure Tok where
  text : String
  lemma_ : String
  isAlpha : Bool
  isStop : Bool
  isPunct : Bool
deriving DecidableEq

/-- The single-token IP_ADDRESS matcher pattern of nlp.py lines 22-25:
the token text must match (?:\d{1,3}\.){3}\d{1,3} exactly, i.e. four
runs of one to three digits separated by dots. -/
def isIpText (s : String) : Bool :=
  match splitOnDot s.data with
  | [a, b, c, d] =>
    [a, b, c, d].all (fun p => decide (1 ≤ p.length) && decide (p.length ≤ 3) && p.all Char.isDigit)
  | _ => false

/-- Whether the ip_matcher fires on this token. -/
def isIpTok (t : Tok) : Bool := isIpText t.text

/-- ACTION_VERBS of nlp.py lines 30-33. -/
def actionVerbs : List String :=
  ["block", "deny", "drop", "reject", "allow", "permit", "accept"]

/-- TARGET_DEVICE_PREPS of nlp.py line 34. -/
def targetDevicePreps : List String := ["on", "at"]

/-- SOURCE_IP_PREPS of nlp.py line 35. -/
def sourceIpPreps : List String := ["from"]

/-- DESTINATION_IP_PREPS of nlp.py line 36. -/
def destinationIpPreps : List String := ["to"]

/-- BOUNDARY_PREPS of nlp.py line 37. -/
def boundaryPreps : List String := ["on", "at", "from", "to"]

/-- Embeds nlp._find_primary_action (lines 88-102): collect every token
whose lowercased lemma is an action verb and choose the last one,
returning its lemma and token index. -/
def find_primary_action (toks : List Tok) : Option (String × Nat) :=
  ((toks.enum.filter (fun it => actionVerbs.contains (toLowerStr it.2.lemma_))).getLast?).map
    (fun it => (toLowerStr it.2.lemma_, it.1))

/-- The skippable service prefix words of nlp._identify_service line 108. -/
def skippableServicePrefixWords : List String :=
  ["all", "any", "incoming", "outgoing", "traffic", "access", "queries"]

/-- The general skippable words of nlp._identify_service line 109. -/
def skippableServiceGeneralWords : List String :=
  ["all", "any", "incoming", "outgoing", "traffic", "access", "queries", "ensure", "please"]

/-- Attempt 1 of nlp._identify_service (lines 112-131), scanning the
tokens after the action verb: stop at an IP token, a boundary
preposition or a non-alphabetic token; skip stop words, punctuation and
skippable prefix words; the first other alphabetic token is the service. -/
def searchServiceAfter : List Tok → Option String
  | [] => none
  | t :: rest =>
    if isIpTok t then none
    else if boundaryPreps.contains (toLowerStr t.lemma_) then none
    else if t.isStop || t.isPunct then searchServiceAfter rest
    else if t.isAlpha then
      (if skippableServicePrefixWords.contains (toLowerStr t.lemma_) then searchServiceAfter rest
       else some (toLowerStr t.lemma_))
    else none

/-- Attempt 2 of nlp._identify_service (lines 134-150), scanning the
tokens before the action verb from right to left (the argument is the
reversed prefix of the clause): IP tokens, boundary prepositions, stop
words and punctuation are passed over; the first alphabetic token outside
the general skippable words wins outright, while the first skippable
alphabetic token is kept as a weak candidate. -/
def searchServiceBefore : List Tok → Option String → Option String
  | [], weak => weak
  | t :: rest, weak =>
    if isIpTok t then searchServiceBefore rest weak
    else if boundaryPreps.contains (toLowerStr t.lemma_) then searchServiceBefore rest weak
    else if t.isStop || t.isPunct then searchServiceBefore rest weak
    else if t.isAlpha then
      (if ¬ skippableServiceGeneralWords.contains (toLowerStr t.lemma_) then some (toLowerStr t.lemma_)
       else if weak.isNone then searchServiceBefore rest (some (toLowerStr t.lemma_))
       else searchServiceBefore rest weak)
    else searchServiceBefore rest weak

/-- Embeds nlp._identify_service (lines 105-153): search after the action
verb first, then before it, keeping only truthy candidates. -/
def identify_service (toks : List Tok) (actionIdx : Nat) : Option String :=
  let afterRes := searchServiceAfter (toks.drop (actionIdx + 1))
  let s1 : Option String := if pyTruthy afterRes then afterRes else none
  if pyTruthy s1 ∨ actionIdx = 0 then s1
  else
    let beforeRes := searchServiceBefore ((toks.take actionIdx).reverse) none
    if pyTruthy beforeRes then beforeRes else s1

/-- One entry of the list built by nlp._extract_ip_entities. -/
structure IpEnt where
  ip : String
  prep : Option String
  start : Nat
deriving DecidableEq

/-- Embeds nlp._extract_ip_entities (lines 156-166): every IP token,
together with the lowercased lemma of the token immediately before it
(None at clause start). -/
def extract_ip_entities (toks : List Tok) : List IpEnt :=
  (toks.enum.filter (fun it => isIpTok it.2)).map
    (fun it =>
      { ip := it.2.text,
        prep := if it.1 > 0 then (toks.get? (it.1 - 1)).map (fun p => toLowerStr p.lemma_) else none,
        start := it.1 })

/-- Python membership test entity["prep"] in preps (None is never a
member). -/
def prepMem (e : IpEnt) (preps : List String) : Bool :=
  match e.prep with
  | some p => preps.contains p
  | none => false

/-- The explicit-target pass of nlp._assign_ip_roles (lines 174-187): the
first on/at entity becomes the target; later on/at entities are kept in
the remaining list, as are all others. -/
def passTarget (acc : Option String) : List IpEnt → Option String × List IpEnt
  | [] => (acc, [])
  | e :: rest =>
    if prepMem e targetDevicePreps then
      if ¬ pyTruthy acc then passTarget (some e.ip) rest
      else
        let (a, r) := passTarget acc rest
        (a, e :: r)
    else
      let (a, r) := passTarget acc rest
      (a, e :: r)

/-- The source and destination passes of nlp._assign_ip_roles
(lines 189-213): the first matching entity is assigned, later matching
entities are discarded, non-matching entities are kept. -/
def passRole (preps : List String) (acc : Option String) :
    List IpEnt → Option String × List IpEnt
  | [] => (acc, [])
  | e :: rest =>
    if prepMem e preps then
      (if ¬ pyTruthy acc then passRole preps (some e.ip) rest else passRole preps acc rest)
    else
      let (a, r) := passRole preps acc rest
      (a, e :: r)

/-- Embeds nlp._assign_ip_roles (lines 169-239): prepositional passes,
then a lone ungoverned IP defaults to source (unless it is the explicit
target), and a missing target defaults to the destination, else the
source. -/
def assign_ip_roles (ents : List IpEnt) :
    Option String × Option String × Option String × List IpEnt :=
  let (target0, rem1) := passTarget none ents
  let (source0, rem2) := passRole sourceIpPreps none rem1
  let (dest0, rem3) := passRole destinationIpPreps none rem2
  let (source1, rem4) :=
    if rem3.length = 1 ∧ ¬ pyTruthy source0 ∧ ¬ pyTruthy dest0 then
      match rem3 with
      | e :: rest => if target0 ≠ some e.ip then (some e.ip, rest) else (source0, rem3)
      | [] => (source0, rem3)
    else (source0, rem3)
  let target1 :=
    if ¬ pyTruthy target0 then
      (if pyTruthy dest0 then dest0 else if pyTruthy source0 then source0 else target0)
    else target0
  (source1, dest0, target1, rem4)

/-- Embeds nlp.parse_single (lines 244-300): find the action, identify
the service, extract and role-assign the IPs, reject the clause when the
action or the enforcement target is missing, and default the service to
any.  The empty Python dictionary is embedded as none. -/
def parse_single (toks : List Tok) : Option NlpRule :=
  match find_primary_action toks with
  | none => none
  | some (act, idx) =>
    let service := identify_service toks idx
    let ents := extract_ip_entities toks
    let roles := assign_ip_roles ents
    let src := roles.1
    let dst := roles.2.1
    let tgt := roles.2.2.1
    if ¬ pyTruthy (some act) ∨ ¬ pyTruthy tgt then none
    else if ¬ pyTruthy tgt ∧ ¬ (pyTruthy src ∨ pyTruthy dst) then none
    else
      some { action := some act,
             service := if ¬ pyTruthy service then some "any" else service,
             source_ip := src, destination_ip := dst, target_device_ip := tgt }

/-- Modelled from the spec: the per-clause control flow of §2 (Intent
Extractor, then Role and Target Resolver, then Chain Resolver, then Rule
Synthesizer, grouped by enforcement device).  The glue module that wires
the backend policy components together is not under src/, so the
composition follows the spec; each stage is the embedded source function. -/
def pipeline (mappings : SvcMappings) (clauses : List (List Tok))
    (preferredTargetIp : Option String := none) : List (String × List String) :=
  clauses.filterMap (fun toks =>
    (parse_single toks).bind (fun r =>
      (determine_final_target_and_chain r preferredTargetIp).map (fun ir =>
        (ir.final_target_ip.getD "", build_commands mappings (toBuilderRule ir)))))

/-! ## Concrete clauses

The spaCy tokenization of the concrete scenario clauses.  For the plain
lowercase words involved, en_core_web_sm lemmatizes each word to itself;
the prepositions on, at, from and to are stop words; dotted-quad tokens
are neither alphabetic nor stop words nor punctuation and keep their text
as lemma. -/

/-- A plain lowercase word token whose lemma is its text. -/
def mkWordTok (s : String) (stop : Bool) : Tok :=
  { text := s, lemma_ := s, isAlpha := true, isStop := stop, isPunct := false }

/-- A dotted-quad address token. -/
def mkIpTok (s : String) : Tok :=
  { text := s, lemma_ := s, isAlpha := false, isStop := false, isPunct := false }

/-- The clause "deny ssh from 10.0.0.5" of spec Scenario A. -/
def scenarioAToks : List Tok :=
  [mkWordTok "deny" false, mkWordTok "ssh" false, mkWordTok "from" true, mkIpTok "10.0.0.5"]

/-- The clause "on 10.0.0.5 deny ssh from 10.0.0.5": the enforcement
target is given explicitly by the preposition on, and happens to equal
the source address. -/
def explicitEqualTargetToks : List Tok :=
  [mkWordTok "on" true, mkIpTok "10.0.0.5", mkWordTok "deny" false, mkWordTok "ssh" false,
   mkWordTok "from" true, mkIpTok "10.0.0.5"]

/-! ## Claim theorems: chain resolution, caller override, rule synthesis -/

/-- C1, amended: with only a destination address present, the Chain
Resolver component (RuleInterpreter) yields INPUT both when the final
target equals the destination and when it does not; the legacy
policy_engine chain logic instead yields OUTPUT when the final target
equals the destination, and INPUT otherwise. -/
theorem c1_amended :
    (∀ finalTgt src dst : Option String, pyTruthy finalTgt → ¬ pyTruthy src → pyTruthy dst →
      interpreterChain finalTgt src dst = "INPUT") ∧
    (∀ finalTgt src dst : Option String, pyTruthy finalTgt → ¬ pyTruthy src → pyTruthy dst →
      policyEngineChain finalTgt src dst = if finalTgt = dst then "OUTPUT" else "INPUT") := by
  constructor <;> intro f s d hf hs hd <;>
    have hfs : ¬ (f = s) := fun h => hs (by rw [h] at hf; exact hf)
  · simp [interpreterChain, hfs, hd, hs]
  · simp [policyEngineChain, hfs, hd, hs]

/-- C1, witness: a destination-only rule enforced on a third device is
INPUT for the interpreter, and the engine variant evaluated where target
equals destination. -/
theorem c1_amended_witness :
    interpreterChain (some "9.9.9.9") none (some "10.0.0.7") = "INPUT" ∧
    policyEngineChain (some "10.0.0.7") none (some "10.0.0.7") =
      (if (some "10.0.0.7" : Option String) = some "10.0.0.7" then "OUTPUT" else "INPUT") :=
  ⟨c1_amended.1 (some "9.9.9.9") none (some "10.0.0.7") (by decide) (by decide) (by decide),
   c1_amended.2 (some "10.0.0.7") none (some "10.0.0.7") (by decide) (by decide) (by decide)⟩

/-- C1, counterexample: the claim says the chain is INBOUND whenever only
a destination is present, but the policy_engine variant
(policy_engine.py lines 147-151) produces OUTPUT when the enforcement
target equals that destination. -/
theorem c1_counterexample :
    policyEngineChain (some "10.0.0.7") none (some "10.0.0.7") = "OUTPUT" ∧
    ("OUTPUT" : String) ≠ "INPUT" :=
  ⟨by decide, by decide⟩

/-- C2, amended: with a truthy preferredTarget, (a) a rule without a
target gets the preferred target, (b) a rule whose target the difference
heuristic classifies as implicit gets the preferred target, and (c) a
rule whose target the heuristic classifies as explicit (it differs from
the present source and destination, or no address is present) keeps its
own target.  Because explicitness is re-derived by comparison, an
explicit on/at target that equals the source or the destination falls
under (b) and is overridden. -/
theorem c2_amended (r : NlpRule) (pref : String) (hpref : pref ≠ "") :
    (¬ pyTruthy r.target_device_ip →
      determine_final_target_and_chain r (some pref) =
        some { final_target_ip := some pref,
               chain := interpreterChain (some pref) r.source_ip r.destination_ip,
               action := r.action, service := r.service,
               source_ip := r.source_ip, destination_ip := r.destination_ip }) ∧
    (pyTruthy r.target_device_ip →
      ¬ nlpTargetWasExplicit r.source_ip r.destination_ip r.target_device_ip →
      determine_final_target_and_chain r (some pref) =
        some { final_target_ip := some pref,
               chain := interpreterChain (some pref) r.source_ip r.destination_ip,
               action := r.action, service := r.service,
               source_ip := r.source_ip, destination_ip := r.destination_ip }) ∧
    (nlpTargetWasExplicit r.source_ip r.destination_ip r.target_device_ip →
      determine_final_target_and_chain r (some pref) =
        some { final_target_ip := r.target_device_ip,
               chain := interpreterChain r.target_device_ip r.source_ip r.destination_ip,
               action := r.action, service := r.service,
               source_ip := r.source_ip, destination_ip := r.destination_ip }) := by
  have hp : pyTruthy (some pref) = true := by simpa [pyTruthy] using hpref
  refine ⟨?_, ?_, ?_⟩
  · intro ht
    simp [determine_final_target_and_chain, hp, ht]
  · intro ht hexp
    simp [determine_final_target_and_chain, hp, ht, hexp]
  · intro hexp
    have ht : pyTruthy r.target_device_ip = true := hexp.1
    simp [determine_final_target_and_chain, hp, ht, hexp]

/-- C2, witness: the explicit-target case of the amended claim at a
concrete rule with a distinct on-target. -/
theorem c2_amended_witness :
    determine_final_target_and_chain
      { action := some "deny", service := some "ssh", source_ip := some "2.2.2.2",
        destination_ip := none, target_device_ip := some "1.1.1.1" } (some "3.3.3.3") =
      some { final_target_ip := some "1.1.1.1",
             chain := interpreterChain (some "1.1.1.1") (some "2.2.2.2") none,
             action := some "deny", service := some "ssh",
             source_ip := some "2.2.2.2", destination_ip := none } :=
  (c2_amended
    { action := some "deny", service := some "ssh", source_ip := some "2.2.2.2",
      destination_ip := none, target_device_ip := some "1.1.1.1" }
    "3.3.3.3" (by decide)).2.2 (by decide)

/-- C2, counterexample: in the clause "on 10.0.0.5 deny ssh from
10.0.0.5" the target is given explicitly by the preposition on and
equals the source; the claim says a caller-preferred target is then
ignored, but the pipeline replaces it with the preferred 192.168.1.50. -/
theorem c2_counterexample :
    ((parse_single explicitEqualTargetToks).bind
        (fun r => determine_final_target_and_chain r (some "192.168.1.50"))).map
      (fun ir => ir.final_target_ip) = some (some "192.168.1.50") ∧
    (parse_single explicitEqualTargetToks).map (fun r => r.target_device_ip) =
      some (some "10.0.0.5") ∧
    (some "192.168.1.50" : Option String) ≠ some "10.0.0.5" :=
  ⟨by decide, by decide, by decide⟩

/-- C3: a service found in the catalog with a nonempty entry list makes
build_commands emit exactly one command per entry, in catalog order, and
the protocol/port policy per entry attaches -p for a truthy protocol and
--dport exactly when the protocol lowercases to tcp or udp and the entry
defines a port; a port on any other protocol is dropped. -/
theorem c3_catalog_expansion (mappings : SvcMappings) (r : BuilderRule) (tact : String)
    (entries : List SvcParam)
    (hact : pyTruthy r.action) (hch : pyTruthy r.chain)
    (htact : actionToIptablesTarget.lookup (toLowerStr (r.action.getD "")) = some tact)
    (hsvc : ¬ (pyTruthy r.service ∧ toLowerStr (r.service.getD "") ∈ servicesToIgnore))
    (hfound : get_service_params mappings r.service = some entries)
    (hne : entries ≠ []) :
    build_commands mappings r
        = entries.map (fun q => String.intercalate " "
            (baseCmdParts (r.chain.getD "") r.source_ip r.destination_ip
              ++ protoPortParts q ++ ["-j", tact])) ∧
    (build_commands mappings r).length = entries.length ∧
    (∀ p : SvcParam, pyTruthy p.proto →
      (((toLowerStr (p.proto.getD "") = "tcp" ∨ toLowerStr (p.proto.getD "") = "udp")
          ∧ p.dport.isSome) →
        protoPortParts p = ["-p", p.proto.getD "", "--dport", toString (p.dport.getD 0)]) ∧
      (¬ ((toLowerStr (p.proto.getD "") = "tcp" ∨ toLowerStr (p.proto.getD "") = "udp")
          ∧ p.dport.isSome) →
        protoPortParts p = ["-p", p.proto.getD ""])) := by
  obtain ⟨p, ps, rfl⟩ : ∃ p ps, entries = p :: ps := by
    cases entries with
    | nil => exact absurd rfl hne
    | cons p ps => exact ⟨p, ps, rfl⟩
  have hbc : build_commands mappings r
      = (p :: ps).map (fun q => String.intercalate " "
          (baseCmdParts (r.chain.getD "") r.source_ip r.destination_ip
            ++ protoPortParts q ++ ["-j", tact])) := by
    unfold build_commands
    rw [if_neg (by simp [hact, hch]), htact]
    simp only [hfound, if_neg hsvc]
    simp
  refine ⟨hbc, by rw [hbc]; simp, ?_⟩
  intro q hq
  constructor <;> intro hc <;> unfold protoPortParts <;> rw [if_pos hq]
  · rw [if_pos hc]; rfl
  · rw [if_neg hc]; simp

/-- C3, witness: the dns entry of the spec catalog (two entries) expands
to exactly two commands in catalog order. -/
theorem c3_catalog_expansion_witness :
    build_commands specMappings
      { chain := some "INPUT", action := some "deny", service := some "dns",
        source_ip := some "1.2.3.4", destination_ip := none }
      = [⟨some "udp", some 53⟩, ⟨some "tcp", some 53⟩].map
          (fun q : SvcParam => String.intercalate " "
            (baseCmdParts "INPUT" (some "1.2.3.4") none ++ protoPortParts q ++ ["-j", "DROP"])) ∧
    (build_commands specMappings
      { chain := some "INPUT", action := some "deny", service := some "dns",
        source_ip := some "1.2.3.4", destination_ip := none }).length
      = ([⟨some "udp", some 53⟩, ⟨some "tcp", some 53⟩] : List SvcParam).length ∧
    (∀ p : SvcParam, pyTruthy p.proto →
      (((toLowerStr (p.proto.getD "") = "tcp" ∨ toLowerStr (p.proto.getD "") = "udp")
          ∧ p.dport.isSome) →
        protoPortParts p = ["-p", p.proto.getD "", "--dport", toString (p.dport.getD 0)]) ∧
      (¬ ((toLowerStr (p.proto.getD "") = "tcp" ∨ toLowerStr (p.proto.getD "") = "udp")
          ∧ p.dport.isSome) →
        protoPortParts p = ["-p", p.proto.getD ""])) :=
  c3_catalog_expansion specMappings
    { chain := some "INPUT", action := some "deny", service := some "dns",
      source_ip := some "1.2.3.4", destination_ip := none }
    "DROP" [⟨some "udp", some 53⟩, ⟨some "tcp", some 53⟩]
    (by decide) (by decide) (by decide) (by decide) (by decide) (by decide)

/-- C6, amended: for the clause "deny ssh from 10.0.0.5" with no
caller-preferred target, the pipeline produces exactly one rule bound to
enforcement device 10.0.0.5 whose single rendered command line is
"iptables -A OUTPUT -s 10.0.0.5 -p tcp --dport 22 -j DROP" (OUTBOUND
rendered as OUTPUT, deny as DROP, with the iptables executable prefix
that the on-device executor requires). -/
theorem c6_amended :
    pipeline specMappings [scenarioAToks] none =
      [("10.0.0.5", ["iptables -A OUTPUT -s 10.0.0.5 -p tcp --dport 22 -j DROP"])] := by
  decide

/-- C6, counterexample: the rendered command line carries the leading
"iptables " word, so it is not exactly the claimed wire format
"-A OUTPUT -s 10.0.0.5 -p tcp --dport 22 -j DROP". -/
theorem c6_counterexample :
    pipeline specMappings [scenarioAToks] none =
      [("10.0.0.5", ["iptables -A OUTPUT -s 10.0.0.5 -p tcp --dport 22 -j DROP"])] ∧
    ("iptables -A OUTPUT -s 10.0.0.5 -p tcp --dport 22 -j DROP" : String) ≠
      "-A OUTPUT -s 10.0.0.5 -p tcp --dport 22 -j DROP" :=
  ⟨by decide, by decide⟩

/-- C7: when the catalog lookup yields nothing for the service of the
rule (absent, unavailable, malformed, or an empty definition),
build_commands emits exactly one unqualified command (no -p, no --dport)
if a source or destination address is present, and no command at all
otherwise. -/
theorem c7_unknown_service (mappings : SvcMappings) (r : BuilderRule) (tact : String)
    (hact : pyTruthy r.action) (hch : pyTruthy r.chain)
    (htact : actionToIptablesTarget.lookup (toLowerStr (r.action.getD "")) = some tact)
    (hsvc : ¬ (pyTruthy r.service ∧ toLowerStr (r.service.getD "") ∈ servicesToIgnore))
    (hnf : get_service_params mappings r.service = none
         ∨ get_service_params mappings r.service = some []) :
    ((pyTruthy r.source_ip ∨ pyTruthy r.destination_ip) →
      build_commands mappings r
        = [String.intercalate " "
            (baseCmdParts (r.chain.getD "") r.source_ip r.destination_ip ++ ["-j", tact])]) ∧
    (¬ (pyTruthy r.source_ip ∨ pyTruthy r.destination_ip) →
      build_commands mappings r = []) := by
  constructor <;> intro hips <;> unfold build_commands <;>
    rw [if_neg (by simp [hact, hch]), htact] <;>
    rcases hnf with hnf | hnf <;> simp only [hnf, if_neg hsvc] <;> simp [hips]

/-- C7, witness: an unknown service with a source address degrades to
one unqualified command; evaluated at a concrete rule. -/
theorem c7_unknown_service_witness :
    build_commands specMappings
      { chain := some "INPUT", action := some "allow", service := some "unknownservice",
        source_ip := some "5.5.5.5", destination_ip := none }
      = [String.intercalate " "
          (baseCmdParts "INPUT" (some "5.5.5.5") none ++ ["-j", "ACCEPT"])] :=
  (c7_unknown_service specMappings
    { chain := some "INPUT", action := some "allow", service := some "unknownservice",
      source_ip := some "5.5.5.5", destination_ip := none }
    "ACCEPT" (by decide) (by decide) (by decide) (by decide)
    (Or.inl (by decide))).1 (Or.inl (by decide))

/-- The specification reading of action selection: the action is the
lowercased lemma of the last token of the clause whose lemma is an
action verb. -/
def lastActionVerbSpec (toks : List Tok) : Option String :=
  ((toks.filter (fun t => actionVerbs.contains (toLowerStr t.lemma_))).getLast?).map
    (fun t => toLowerStr t.lemma_)

/-- C8: find_primary_action picks exactly the last action verb of the
clause (later verbs override earlier ones); in particular it returns an
action precisely when the clause contains an action verb. -/
theorem c8_last_action_verb_wins (toks : List Tok) :
    (find_primary_action toks).map Prod.fst = lastActionVerbSpec toks := by
  unfold find_primary_action lastActionVerbSpec
  have key : (toks.enum.filter (fun it => actionVerbs.contains (toLowerStr it.2.lemma_))).map
      (fun it => toLowerStr it.2.lemma_)
      = (toks.filter (fun t => actionVerbs.contains (toLowerStr t.lemma_))).map
          (fun t => toLowerStr t.lemma_) := by
    have h1 := List.map_filter (p := fun t : Tok => actionVerbs.contains (toLowerStr t.lemma_))
      (f := Prod.snd) (l := toks.enum)
    rw [List.enum_map_snd] at h1
    rw [h1, List.map_map]
    rfl
  calc ((toks.enum.filter (fun it => actionVerbs.contains (toLowerStr it.2.lemma_))).getLast?.map
          (fun it => (toLowerStr it.2.lemma_, it.1))).map Prod.fst
      = (toks.enum.filter (fun it => actionVerbs.contains (toLowerStr it.2.lemma_))).getLast?.map
          (fun it => toLowerStr it.2.lemma_) := by rw [Option.map_map]; rfl
    _ = ((toks.enum.filter (fun it => actionVerbs.contains (toLowerStr it.2.lemma_))).map
          (fun it => toLowerStr it.2.lemma_)).getLast? := (List.getLast?_map _ _).symm
    _ = ((toks.filter (fun t => actionVerbs.contains (toLowerStr t.lemma_))).map
          (fun t => toLowerStr t.lemma_)).getLast? := by rw [key]
    _ = ((toks.filter (fun t => actionVerbs.contains (toLowerStr t.lemma_))).getLast?).map
          (fun t => toLowerStr t.lemma_) := List.getLast?_map _ _

/-- C9: every non-empty result of parse_single carries a truthy action,
a truthy service (any by default) and a truthy enforcement target; a
clause without a determinable target yields the empty result instead of
a partial one. -/
theorem c9_nonempty_result_complete (toks : List Tok) (r : NlpRule)
    (h : parse_single toks = some r) :
    pyTruthy r.action ∧ pyTruthy r.service ∧ pyTruthy r.target_device_ip := by
  simp only [parse_single] at h
  cases hfa : find_primary_action toks with
  | none => rw [hfa] at h; simp at h
  | some p =>
    obtain ⟨act, idx⟩ := p
    rw [hfa] at h
    simp only [] at h
    split at h
    · simp at h
    · split at h
      · simp at h
      · rename_i h1 h2
        simp only [Option.some.injEq] at h
        push_neg at h1
        have hserv : pyTruthy (if ¬ pyTruthy (identify_service toks idx) then some "any"
            else identify_service toks idx) = true := by
          split
          · decide
          · rename_i hs; simpa using hs
        subst h
        exact ⟨h1.1, hserv, h1.2⟩

/-- C9, witness: the Scenario A clause parses to a complete rule. -/
theorem c9_nonempty_result_complete_witness :
    pyTruthy (some "deny") ∧ pyTruthy (some "ssh") ∧ pyTruthy (some "10.0.0.5") :=
  c9_nonempty_result_complete scenarioAToks
    ⟨some "deny", some "ssh", some "10.0.0.5", none, some "10.0.0.5"⟩
    (by decide)

/-- C10: a rule with a recognized action, a chain and at least one
address always yields at least one command, whatever the catalog holds
for its service. -/
theorem c10_degraded_nonempty (mappings : SvcMappings) (r : BuilderRule) (tact : String)
    (hact : pyTruthy r.action) (hch : pyTruthy r.chain)
    (htact : actionToIptablesTarget.lookup (toLowerStr (r.action.getD "")) = some tact)
    (hips : pyTruthy r.source_ip ∨ pyTruthy r.destination_ip) :
    1 ≤ (build_commands mappings r).length := by
  unfold build_commands
  rw [if_neg (by simp [hact, hch]), htact]
  simp only []
  rcases hg : get_service_params mappings r.service with _ | (_ | ⟨p, ps⟩) <;>
    simp only [hg] <;> split_ifs <;> simp_all

/-- C10, witness: evaluated at a malformed catalog entry (a definition
that is not a list) with a source address present. -/
theorem c10_degraded_nonempty_witness :
    1 ≤ (build_commands (fun _ => some none)
      { chain := some "INPUT", action := some "deny", service := some "web",
        source_ip := some "7.7.7.7", destination_ip := none }).length :=
  c10_degraded_nonempty (fun _ => some none)
    { chain := some "INPUT", action := some "deny", service := some "web",
      source_ip := some "7.7.7.7", destination_ip := none }
    "DROP" (by decide) (by decide) (by decide) (Or.inl (by decide))

/-! ## alias_manager.py

The two module-level dictionaries are embedded as a state of two
functions from strings to optional strings; dictionary insertion and
deletion are pointwise function updates. -/

/-- The alias_manager module state: _aliases_to_ip and _ip_to_aliases. -/
structure AliasState where
  aliasesToIp : String → Option String
  ipToAliases : String → Option String

/-- Dictionary write d[k] = v (with v = none for deletion). -/
def fupd (f : String → Option String) (k : String) (v : Option String) :
    String → Option String :=
  fun x => if x = k then v else f x

/-- First deletion block of add_alias (alias_manager.py lines 27-31):
drop the forward entry of the alias previously held by this IP. -/
def aliasAddStep1 (s : AliasState) (ip : String) : AliasState :=
  match s.ipToAliases ip with
  | some oldAlias => { s with aliasesToIp := fupd s.aliasesToIp oldAlias none }
  | none => s

/-- Second deletion block of add_alias (lines 33-38): if the alias name
currently resolves to some IP whose reverse entry is exactly this alias,
drop that reverse entry. -/
def aliasAddStep2 (s1 : AliasState) (al : String) : AliasState :=
  match s1.aliasesToIp al with
  | some oldIp =>
    if s1.ipToAliases oldIp = some al then
      { s1 with ipToAliases := fupd s1.ipToAliases oldIp none }
    else s1
  | none => s1

/-- Embeds alias_manager.add_alias (lines 15-43): reject empty
arguments, lowercase the alias, run both deletion blocks in order, then
write the new pair into both dictionaries. -/
def add_alias (s : AliasState) (ip aliasName : String) : Bool × AliasState :=
  if ip = "" ∨ aliasName = "" then (false, s)
  else
    let al := toLowerStr aliasName
    let s2 := aliasAddStep2 (aliasAddStep1 s ip) al
    (true, { aliasesToIp := fupd s2.aliasesToIp al (some ip),
             ipToAliases := fupd s2.ipToAliases ip (some al) })

/-- Embeds alias_manager.remove_alias_for_ip (lines 45-54): pop the
reverse entry when present, then pop the forward entry when it exists,
returning True only in that case. -/
def remove_alias_for_ip (s : AliasState) (ip : String) : Bool × AliasState :=
  match s.ipToAliases ip with
  | some al =>
    let s1 : AliasState := { s with ipToAliases := fupd s.ipToAliases ip none }
    match s1.aliasesToIp al with
    | some _ => (true, { s1 with aliasesToIp := fupd s1.aliasesToIp al none })
    | none => (false, s1)
  | none => (false, s)

/-- One operator action on the alias registry. -/
inductive AliasOp
  | assign (ip aliasName : String)
  | unassign (ip : String)

/-- The initial module state: both dictionaries empty. -/
def emptyAliasState : AliasState := ⟨fun _ => none, fun _ => none⟩

/-- Runs a sequence of operator actions from the initial state. -/
def runAliasOps (ops : List AliasOp) : AliasState :=
  ops.foldl
    (fun s op =>
      match op with
      | .assign ip name => (add_alias s ip name).2
      | .unassign ip => (remove_alias_for_ip s ip).2)
    emptyAliasState

/-- The bijection invariant: the reverse dictionary is exactly the
inverse of the forward dictionary. -/
def AliasInv (s : AliasState) : Prop :=
  ∀ n a, s.aliasesToIp n = some a ↔ s.ipToAliases a = some n
theorem fupd_self (f : String → Option String) (k : String) (v : Option String) :
    fupd f k v k = v := by simp [fupd]

theorem fupd_ne (f : String → Option String) (k : String) (v : Option String)
    (x : String) (h : x ≠ k) : fupd f k v x = f x := by simp [fupd, h]

theorem step1_rev (s : AliasState) (ip : String) :
    (aliasAddStep1 s ip).ipToAliases = s.ipToAliases := by
  unfold aliasAddStep1
  cases s.ipToAliases ip <;> rfl

theorem step1_fwd (s : AliasState) (ip : String) (hInv : AliasInv s) (n : String) :
    (aliasAddStep1 s ip).aliasesToIp n
      = if s.aliasesToIp n = some ip then none else s.aliasesToIp n := by
  unfold aliasAddStep1
  cases hrev : s.ipToAliases ip with
  | none =>
    simp only []
    split
    · rename_i h
      exact absurd ((hInv n ip).mp h) (by rw [hrev]; exact fun hc => Option.noConfusion hc)
    · rfl
  | some oldA =>
    have hfa : s.aliasesToIp oldA = some ip := (hInv oldA ip).mpr hrev
    show fupd s.aliasesToIp oldA none n = _
    unfold fupd
    split <;> rename_i h1 <;> split <;> rename_i h2
    · rfl
    · exact absurd (h1 ▸ hfa) h2
    · have := (hInv n ip).mp h2
      rw [hrev] at this
      exact absurd (Option.some.inj this).symm h1
    · rfl

theorem step2_fwd (s1 : AliasState) (al : String) :
    (aliasAddStep2 s1 al).aliasesToIp = s1.aliasesToIp := by
  unfold aliasAddStep2
  split
  · split <;> rfl
  · rfl

theorem step2_rev_mono (s1 : AliasState) (al a v : String)
    (h : (aliasAddStep2 s1 al).ipToAliases a = some v) : s1.ipToAliases a = some v := by
  unfold aliasAddStep2 at h
  rcases hft : s1.aliasesToIp al with _ | oldIp <;> rw [hft] at h <;> dsimp only [] at h
  · exact h
  · by_cases hcond : s1.ipToAliases oldIp = some al
    · rw [if_pos hcond] at h
      by_cases ha : a = oldIp
      · rw [show ({ s1 with ipToAliases := fupd s1.ipToAliases oldIp none } :
            AliasState).ipToAliases a = fupd s1.ipToAliases oldIp none a from rfl,
          ha, fupd_self] at h
        exact Option.noConfusion h
      · rw [show ({ s1 with ipToAliases := fupd s1.ipToAliases oldIp none } :
            AliasState).ipToAliases a = fupd s1.ipToAliases oldIp none a from rfl,
          fupd_ne _ _ _ _ ha] at h
        exact h
    · rw [if_neg hcond] at h
      exact h

theorem step2_rev_erase (s1 : AliasState) (al oldIp : String)
    (hft : s1.aliasesToIp al = some oldIp) (hcond : s1.ipToAliases oldIp = some al) :
    (aliasAddStep2 s1 al).ipToAliases oldIp = none := by
  unfold aliasAddStep2
  rw [hft]
  dsimp only []
  rw [if_pos hcond]
  exact fupd_self _ _ _

theorem step2_rev_keep (s1 : AliasState) (al a : String)
    (hne : s1.ipToAliases a ≠ some al) :
    (aliasAddStep2 s1 al).ipToAliases a = s1.ipToAliases a := by
  unfold aliasAddStep2
  rcases hft : s1.aliasesToIp al with _ | oldIp <;> dsimp only []
  by_cases hcond : s1.ipToAliases oldIp = some al
  · rw [if_pos hcond]
    by_cases ha : a = oldIp
    · exact absurd (ha ▸ hcond) hne
    · exact fupd_ne _ _ _ _ ha
  · rw [if_neg hcond]

theorem aliasInv_add (s : AliasState) (hInv : AliasInv s) (ip name : String) :
    AliasInv (add_alias s ip name).2 := by
  unfold add_alias
  split
  · exact hInv
  · dsimp only []
    generalize toLowerStr name = al
    set s1 := aliasAddStep1 s ip with hs1
    set s2 := aliasAddStep2 s1 al with hs2
    have hrev1 : s1.ipToAliases = s.ipToAliases := step1_rev s ip
    have hfwd1 : ∀ m, s1.aliasesToIp m
        = if s.aliasesToIp m = some ip then none else s.aliasesToIp m := step1_fwd s ip hInv
    have hfwd2 : s2.aliasesToIp = s1.aliasesToIp := step2_fwd s1 al
    have F1 : ∀ m, s2.aliasesToIp m ≠ some ip := by
      intro m hm
      rw [hfwd2, hfwd1] at hm
      split at hm
      · exact Option.noConfusion hm
      · rename_i hcond; exact hcond hm
    have F2 : ∀ b, b ≠ ip → s2.ipToAliases b ≠ some al := by
      intro b hb hcontra
      have hrb : s1.ipToAliases b = some al := step2_rev_mono s1 al b al hcontra
      rw [hrev1] at hrb
      have hfab : s.aliasesToIp al = some b := (hInv al b).mpr hrb
      have hf1 : s1.aliasesToIp al = some b := by
        rw [hfwd1, hfab]
        rw [if_neg (fun hc => hb (Option.some.inj hc))]
      have herase := step2_rev_erase s1 al b hf1 (by rw [hrev1]; exact hrb)
      exact Option.noConfusion (herase.symm.trans hcontra)
    intro n a
    show fupd s2.aliasesToIp al (some ip) n = some a ↔
      fupd s2.ipToAliases ip (some al) a = some n
    by_cases hn : n = al <;> by_cases ha : a = ip
    · subst hn; subst ha
      simp [fupd_self]
    · subst hn
      constructor
      · intro hL
        rw [fupd_self] at hL
        exact absurd (Option.some.inj hL).symm ha
      · intro hR
        rw [fupd_ne _ _ _ _ ha] at hR
        exact absurd hR (F2 a ha)
    · subst ha
      constructor
      · intro hL
        rw [fupd_ne _ _ _ _ hn] at hL
        exact absurd hL (F1 n)
      · intro hR
        rw [fupd_self] at hR
        exact absurd (Option.some.inj hR).symm hn
    · constructor
      · intro hL
        rw [fupd_ne _ _ _ _ hn, hfwd2, hfwd1] at hL
        have hsf : s.aliasesToIp n = some a := by
          revert hL
          split
          · intro h; exact Option.noConfusion h
          · intro h; exact h
        have hsr : s.ipToAliases a = some n := (hInv n a).mp hsf
        have hkeep : s2.ipToAliases a = s1.ipToAliases a := by
          apply step2_rev_keep
          rw [hrev1, hsr]
          intro hcontra
          exact hn (Option.some.inj hcontra)
        rw [fupd_ne _ _ _ _ ha, hkeep, hrev1]
        exact hsr
      · intro hR
        rw [fupd_ne _ _ _ _ ha] at hR
        have hr1 : s1.ipToAliases a = some n := step2_rev_mono s1 al a n hR
        rw [hrev1] at hr1
        have hsf : s.aliasesToIp n = some a := (hInv n a).mpr hr1
        rw [fupd_ne _ _ _ _ hn, hfwd2, hfwd1]
        rw [if_neg (by rw [hsf]; exact fun hc => ha (Option.some.inj hc))]
        exact hsf

theorem aliasInv_remove (s : AliasState) (hInv : AliasInv s) (ip : String) :
    AliasInv (remove_alias_for_ip s ip).2 := by
  unfold remove_alias_for_ip
  rcases hrev : s.ipToAliases ip with _ | al <;> dsimp only []
  · exact hInv
  · have hfal : s.aliasesToIp al = some ip := (hInv al ip).mpr hrev
    rw [hfal]
    dsimp only []
    intro n a
    show fupd s.aliasesToIp al none n = some a ↔ fupd s.ipToAliases ip none a = some n
    by_cases hn : n = al <;> by_cases ha : a = ip
    · subst hn; subst ha
      constructor <;> intro h <;> rw [fupd_self] at h <;> exact Option.noConfusion h
    · subst hn
      constructor
      · intro h; rw [fupd_self] at h; exact Option.noConfusion h
      · intro h
        rw [fupd_ne _ _ _ _ ha] at h
        have h2 := (hInv n a).mpr h
        exact absurd (Option.some.inj (hfal.symm.trans h2)) (fun hc => ha hc.symm)
    · subst ha
      constructor
      · intro h
        rw [fupd_ne _ _ _ _ hn] at h
        have h2 := (hInv n a).mp h
        rw [hrev] at h2
        exact absurd (Option.some.inj h2).symm hn
      · intro h; rw [fupd_self] at h; exact Option.noConfusion h
    · constructor
      · intro h
        rw [fupd_ne _ _ _ _ hn] at h
        rw [fupd_ne _ _ _ _ ha]
        exact (hInv n a).mp h
      · intro h
        rw [fupd_ne _ _ _ _ ha] at h
        rw [fupd_ne _ _ _ _ hn]
        exact (hInv n a).mpr h

theorem aliasInv_run (ops : List AliasOp) : AliasInv (runAliasOps ops) := by
  unfold runAliasOps
  have main : ∀ (l : List AliasOp) (s : AliasState), AliasInv s →
      AliasInv (l.foldl
        (fun s op =>
          match op with
          | .assign ip name => (add_alias s ip name).2
          | .unassign ip => (remove_alias_for_ip s ip).2) s) := by
    intro l
    induction l with
    | nil => intro s hs; exact hs
    | cons op rest ih =>
      intro s hs
      simp only [List.foldl_cons]
      apply ih
      cases op with
      | assign ip name => exact aliasInv_add s hs ip name
      | unassign ip => exact aliasInv_remove s hs ip
  apply main
  intro n a
  simp [emptyAliasState]

/-- C4: after any sequence of assign/unassign operations the alias table
is a bijection (the reverse map is exactly the inverse of the forward
map), and a further assign of name to ip binds the lowercased name and
the address to each other while no other name maps to that address and
no other address maps back to that name. -/
theorem c4_alias_bijection (ops : List AliasOp) (ip name : String)
    (hip : ip ≠ "") (hname : name ≠ "") :
    AliasInv (runAliasOps ops) ∧
    (add_alias (runAliasOps ops) ip name).2.aliasesToIp (toLowerStr name) = some ip ∧
    (add_alias (runAliasOps ops) ip name).2.ipToAliases ip = some (toLowerStr name) ∧
    (∀ n, n ≠ toLowerStr name →
      (add_alias (runAliasOps ops) ip name).2.aliasesToIp n ≠ some ip) ∧
    (∀ a, a ≠ ip →
      (add_alias (runAliasOps ops) ip name).2.ipToAliases a ≠ some (toLowerStr name)) := by
  have hrun := aliasInv_run ops
  have hguard : ¬ (ip = "" ∨ name = "") := by
    rintro (h | h)
    · exact hip h
    · exact hname h
  have hfwd : (add_alias (runAliasOps ops) ip name).2.aliasesToIp (toLowerStr name)
      = some ip := by
    unfold add_alias
    rw [if_neg hguard]
    exact fupd_self _ _ _
  have hrevpt : (add_alias (runAliasOps ops) ip name).2.ipToAliases ip
      = some (toLowerStr name) := by
    unfold add_alias
    rw [if_neg hguard]
    exact fupd_self _ _ _
  have hInv2 := aliasInv_add (runAliasOps ops) hrun ip name
  refine ⟨hrun, hfwd, hrevpt, ?_, ?_⟩
  · intro n hn hcontra
    have h2 := (hInv2 n ip).mp hcontra
    rw [hrevpt] at h2
    exact hn (Option.some.inj h2).symm
  · intro a ha hcontra
    have h2 := (hInv2 (toLowerStr name) a).mpr hcontra
    rw [hfwd] at h2
    exact ha (Option.some.inj h2).symm

/-- C4, witness: a two-operation history followed by a rebinding assign,
at concrete addresses and names. -/
theorem c4_alias_bijection_witness :
    AliasInv (runAliasOps [AliasOp.assign "10.0.0.1" "Gateway",
      AliasOp.assign "10.0.0.2" "WebServer"]) ∧
    (add_alias (runAliasOps [AliasOp.assign "10.0.0.1" "Gateway",
      AliasOp.assign "10.0.0.2" "WebServer"]) "10.0.0.2" "Gateway").2.aliasesToIp
        (toLowerStr "Gateway") = some "10.0.0.2" ∧
    (add_alias (runAliasOps [AliasOp.assign "10.0.0.1" "Gateway",
      AliasOp.assign "10.0.0.2" "WebServer"]) "10.0.0.2" "Gateway").2.ipToAliases
        "10.0.0.2" = some (toLowerStr "Gateway") ∧
    (∀ n, n ≠ toLowerStr "Gateway" →
      (add_alias (runAliasOps [AliasOp.assign "10.0.0.1" "Gateway",
        AliasOp.assign "10.0.0.2" "WebServer"]) "10.0.0.2" "Gateway").2.aliasesToIp n
          ≠ some "10.0.0.2") ∧
    (∀ a, a ≠ "10.0.0.2" →
      (add_alias (runAliasOps [AliasOp.assign "10.0.0.1" "Gateway",
        AliasOp.assign "10.0.0.2" "WebServer"]) "10.0.0.2" "Gateway").2.ipToAliases a
          ≠ some (toLowerStr "Gateway")) :=
  c4_alias_bijection [AliasOp.assign "10.0.0.1" "Gateway",
    AliasOp.assign "10.0.0.2" "WebServer"] "10.0.0.2" "Gateway"
    (by decide) (by decide)

/-! ## nlp.py alias substitution

A faithful embedding of _substitute_aliases_in_text (nlp.py lines
48-57): the alias names, sorted by length descending (Python sorted is
stable; List.insertionSort with a strict comparison on lengths is the
same stable descending sort), are each substituted by one re.sub pass
with the pattern word-boundary + escaped name + word-boundary.  One
re.sub pass scans the input left to right: at each position it matches
the literal name whose word boundaries are evaluated on the input text,
copies one character on failure, and on success emits the replacement
and continues after the matched region. -/

/-- Python regex word characters (ASCII range of \w). -/
def isWordChar (c : Char) : Bool := c.isAlphanum || c = '_'

/-- Word-character status of an optional character; out of range counts
as non-word. -/
def wordO : Option Char → Bool
  | none => false
  | some c => isWordChar c

/-- A \b word boundary sits between two characters of different word
status. -/
def isBoundary (a b : Option Char) : Bool := wordO a != wordO b

/-- One re.sub scan step with explicit fuel (the fuel is a Lean
termination artifact; every call supplies at least the text length,
which suffices because each step consumes at least one character).  The
prev argument is the original-text character just before the current
position, as \b is evaluated on the input text. -/
def subOnceFuel (nm addr : List Char) : Nat → Option Char → List Char → List Char
  | 0, _, t => t
  | Nat.succ fuel, prev, t =>
    match t with
    | [] => []
    | c :: rest =>
      if nm ≠ [] ∧ nm.isPrefixOf (c :: rest)
          ∧ isBoundary prev nm.head? = true
          ∧ isBoundary nm.getLast? (((c :: rest).drop nm.length).head?) = true then
        addr ++ subOnceFuel nm addr fuel nm.getLast? ((c :: rest).drop nm.length)
      else c :: subOnceFuel nm addr fuel (some c) rest

/-- One re.sub(pattern, address, text) call for one alias name. -/
def subOnce (name repl text : String) : String :=
  ⟨subOnceFuel name.data repl.data text.data.length none text.data⟩

/-- The sorted(keys, key=len, reverse=True) order: a stable descending
sort by name length. -/
def sortAliases (l : List (String × String)) : List (String × String) :=
  List.insertionSort (fun a b => b.1.length ≤ a.1.length) l

/-- Embeds nlp._substitute_aliases_in_text (lines 48-57): substitute
every alias, longest names first. -/
def substitute_aliases_in_text (aliases : List (String × String)) (text : String) : String :=
  (sortAliases aliases).foldl (fun acc kv => subOnce kv.1 kv.2 acc) text

/-- The original-text character just before position i (prev at the
start of the scan). -/
def prevCharAt (prev : Option Char) (t : List Char) (i : Nat) : Option Char :=
  if i = 0 then prev else t.get? (i - 1)

/-- The pattern \b name \b matches the text t at position i, with prev
the character context before the text. -/
def matchAtPos (m : List Char) (prev : Option Char) (t : List Char) (i : Nat) : Prop :=
  m ≠ [] ∧ (∀ k, k < m.length → t.get? (i + k) = m.get? k) ∧
  isBoundary (prevCharAt prev t i) m.head? = true ∧
  isBoundary m.getLast? (t.get? (i + m.length)) = true

instance (m : List Char) (prev : Option Char) (t : List Char) (i : Nat) :
    Decidable (matchAtPos m prev t i) := by
  unfold matchAtPos; infer_instance

/-- No whole-word occurrence of the name m anywhere in s. -/
def noWordOcc (m s : List Char) : Prop := ∀ i < s.length, ¬ matchAtPos m none s i

instance (m s : List Char) : Decidable (noWordOcc m s) := by
  unfold noWordOcc; infer_instance

/-- All characters of a name are letters. -/
def AllAlpha (m : List Char) : Prop := ∀ c ∈ m, c.isAlpha = true

instance (m : List Char) : Decidable (AllAlpha m) := by
  unfold AllAlpha; infer_instance

/-! ## Substitution lemmas and the C5 theorems -/

theorem head?_drop' (l : List Char) (n : Nat) : (l.drop n).head? = l.get? n := by
  have := List.get?_drop l n 0
  simpa using this.symm

theorem lt_length_of_get?_eq_some {l : List Char} {n : Nat} {a : Char}
    (h : l.get? n = some a) : n < l.length := by
  by_contra hn
  rw [List.get?_eq_none.mpr (Nat.le_of_not_lt hn)] at h
  exact Option.noConfusion h

theorem isPrefixOf_iff_get? (m t : List Char) :
    m.isPrefixOf t = true ↔ ∀ k, k < m.length → t.get? k = m.get? k := by
  induction m generalizing t with
  | nil => simp
  | cons a m ih =>
    cases t with
    | nil =>
      simp only [List.isPrefixOf]
      constructor
      · intro h; exact Bool.noConfusion h
      · intro h
        have := h 0 (by simp)
        simp at this
    | cons b t =>
      simp only [List.isPrefixOf, Bool.and_eq_true, beq_iff_eq, ih]
      constructor
      · rintro ⟨rfl, h⟩ k hk
        cases k with
        | zero => rfl
        | succ k => simpa using h k (by simpa using hk)
      · intro h
        refine ⟨by simpa using (h 0 (by simp)).symm, ?_⟩
        intro k hk
        simpa using h (k + 1) (by simpa using hk)

theorem isWordChar_of_isAlpha {c : Char} (h : c.isAlpha = true) : isWordChar c = true := by
  simp [isWordChar, Char.isAlphanum, h]

theorem wordO_head_of_alpha {m : List Char} (hne : m ≠ []) (hal : AllAlpha m) :
    wordO m.head? = true := by
  cases m with
  | nil => exact absurd rfl hne
  | cons a m => exact isWordChar_of_isAlpha (hal a (by simp))

theorem wordO_getLast_of_alpha {m : List Char} (hne : m ≠ []) (hal : AllAlpha m) :
    wordO m.getLast? = true := by
  rw [List.getLast?_eq_getLast m hne]
  exact isWordChar_of_isAlpha (hal _ (List.getLast_mem hne))

theorem matchAtPos_zero (nm : List Char) (prev : Option Char) (t : List Char) :
    matchAtPos nm prev t 0 ↔
      (nm ≠ [] ∧ nm.isPrefixOf t = true
        ∧ isBoundary prev nm.head? = true
        ∧ isBoundary nm.getLast? ((t.drop nm.length).head?) = true) := by
  unfold matchAtPos prevCharAt
  rw [isPrefixOf_iff_get?, head?_drop']
  simp

theorem matchAtPos_cons (m : List Char) (prev : Option Char) (c : Char) (rest : List Char)
    (i : Nat) : matchAtPos m prev (c :: rest) (i + 1) ↔ matchAtPos m (some c) rest i := by
  have h1 : ∀ k : Nat, (c :: rest).get? (i + 1 + k) = rest.get? (i + k) := fun k => by
    rw [Nat.add_right_comm, List.get?_cons_succ]
  have h3 : prevCharAt prev (c :: rest) (i + 1) = prevCharAt (some c) rest i := by
    unfold prevCharAt
    cases i with
    | zero => simp
    | succ j => simp
  unfold matchAtPos
  rw [h3, h1 m.length]
  constructor <;> rintro ⟨hne, hch, hb, ha⟩ <;> refine ⟨hne, ?_, hb, ha⟩
  · exact fun k hk => ((h1 k).symm.trans (hch k hk))
  · exact fun k hk => ((h1 k).trans (hch k hk))

theorem matchAtPos_congr_prev (m : List Char) {p1 p2 : Option Char} (t : List Char) (i : Nat)
    (h : wordO p1 = wordO p2) : matchAtPos m p1 t i ↔ matchAtPos m p2 t i := by
  unfold matchAtPos prevCharAt isBoundary
  cases i with
  | zero => rw [if_pos rfl, if_pos rfl, h]
  | succ j => simp

theorem matchAtPos_drop (m : List Char) (p p' : Option Char) (t : List Char) (d i : Nat)
    (hi : 0 < i) : matchAtPos m p (t.drop d) i ↔ matchAtPos m p' t (d + i) := by
  have h1 : ∀ k : Nat, (t.drop d).get? (i + k) = t.get? (d + i + k) := fun k => by
    rw [List.get?_drop, Nat.add_assoc]
  have h3 : prevCharAt p (t.drop d) i = prevCharAt p' t (d + i) := by
    unfold prevCharAt
    rw [if_neg (Nat.pos_iff_ne_zero.mp hi), if_neg (by omega), List.get?_drop]
    congr 1
    omega
  unfold matchAtPos
  rw [h3, h1 m.length]
  constructor <;> rintro ⟨hne, hch, hb, ha⟩ <;> refine ⟨hne, ?_, hb, ha⟩
  · exact fun k hk => ((h1 k).symm.trans (hch k hk))
  · exact fun k hk => ((h1 k).trans (hch k hk))

theorem matchAtPos_lt {m : List Char} {p : Option Char} {t : List Char} {i : Nat}
    (h : matchAtPos m p t i) : i < t.length := by
  obtain ⟨hne, hch, _, _⟩ := h
  cases m with
  | nil => exact absurd rfl hne
  | cons a m =>
    have h0 := hch 0 (by simp)
    rw [Nat.add_zero] at h0
    exact lt_length_of_get?_eq_some h0

theorem subOnceFuel_id (nm addr : List Char) :
    ∀ (fuel : Nat) (t : List Char) (prev : Option Char), t.length ≤ fuel →
      (∀ i, ¬ matchAtPos nm prev t i) → subOnceFuel nm addr fuel prev t = t := by
  intro fuel
  induction fuel with
  | zero => intro t prev _ _; rfl
  | succ fuel ih =>
    intro t prev hlen hno
    cases t with
    | nil => rfl
    | cons c rest =>
      have hlen' : rest.length ≤ fuel := by simp at hlen; omega
      unfold subOnceFuel
      dsimp only []
      rw [if_neg (fun hcond => hno 0 ((matchAtPos_zero nm prev (c :: rest)).mpr hcond))]
      congr 1
      exact ih rest (some c) hlen'
        (fun i hm => hno (i + 1) ((matchAtPos_cons nm prev c rest i).mpr hm))

theorem subOnceFuel_head (nm addr : List Char) (hnm : nm ≠ []) (halpha : AllAlpha nm)
    (fuel : Nat) (prev : Option Char) (t : List Char) (hw : wordO t.head? = false) :
    (subOnceFuel nm addr fuel prev t).head? = t.head? := by
  cases fuel with
  | zero => rfl
  | succ fuel =>
    cases t with
    | nil => rfl
    | cons c rest =>
      unfold subOnceFuel
      dsimp only []
      rw [if_neg]
      · rfl
      · rintro ⟨_, hpre, _, _⟩
        cases nm with
        | nil => exact hnm rfl
        | cons a nmt =>
          have hac : a = c := by
            have := (isPrefixOf_iff_get? (a :: nmt) (c :: rest)).mp hpre 0 (by simp)
            simpa using this.symm
          have hwa := isWordChar_of_isAlpha (halpha a (by simp))
          rw [hac] at hwa
          simp [wordO] at hw
          rw [hwa] at hw
          exact Bool.noConfusion hw

theorem subOnceFuel_decomp (nm addr : List Char) :
    ∀ (fuel : Nat) (t : List Char) (prev : Option Char), t.length ≤ fuel →
      subOnceFuel nm addr fuel prev t = t ∨
      ∃ j rem, matchAtPos nm prev t j ∧ (∀ i, i < j → ¬ matchAtPos nm prev t i) ∧
        subOnceFuel nm addr fuel prev t = t.take j ++ addr ++ rem := by
  intro fuel
  induction fuel with
  | zero => intro t prev _; exact Or.inl rfl
  | succ fuel ih =>
    intro t prev hlen
    cases t with
    | nil => exact Or.inl rfl
    | cons c rest =>
      unfold subOnceFuel
      dsimp only []
      by_cases hc : (nm ≠ [] ∧ nm.isPrefixOf (c :: rest)
          ∧ isBoundary prev nm.head? = true
          ∧ isBoundary nm.getLast? (((c :: rest).drop nm.length).head?) = true)
      · rw [if_pos hc]
        refine Or.inr ⟨0, subOnceFuel nm addr fuel nm.getLast? ((c :: rest).drop nm.length),
          (matchAtPos_zero nm prev (c :: rest)).mpr hc, fun i hi => by omega, by simp⟩
      · rw [if_neg hc]
        have hlen' : rest.length ≤ fuel := by simp at hlen; omega
        rcases ih rest (some c) hlen' with h | ⟨j, rem, hj, hmin, heq⟩
        · exact Or.inl (by rw [h])
        · refine Or.inr ⟨j + 1, rem, (matchAtPos_cons nm prev c rest j).mpr hj, ?_, ?_⟩
          · intro i hi
            cases i with
            | zero => exact fun hmm => hc ((matchAtPos_zero nm prev (c :: rest)).mp hmm)
            | succ k =>
              exact fun hmm => hmin k (by omega) ((matchAtPos_cons nm prev c rest k).mp hmm)
          · rw [heq]
            simp

theorem subOnceFuel_no_occ (nm addr m : List Char)
    (hnm : nm ≠ []) (halnm : AllAlpha nm)
    (hm : m ≠ []) (halm : AllAlpha m)
    (haddr : addr ≠ [])
    (haocc : ∀ i, ¬ matchAtPos m none addr i) :
    ∀ (fuel : Nat) (t : List Char) (prev : Option Char), t.length ≤ fuel →
      (m = nm ∨ ∀ i, ¬ matchAtPos m prev t i) →
      ∀ i, ¬ matchAtPos m prev (subOnceFuel nm addr fuel prev t) i := by
  intro fuel
  induction fuel with
  | zero =>
    intro t prev hlen _ i hmatch
    have ht : t = [] := List.length_eq_zero.mp (Nat.le_zero.mp hlen)
    subst ht
    have := matchAtPos_lt hmatch
    simp [subOnceFuel] at this
  | succ fuel ih =>
    intro t prev hlen hsrc i hmatch
    cases t with
    | nil =>
      have := matchAtPos_lt hmatch
      simp [subOnceFuel] at this
    | cons c rest =>
      have hO : subOnceFuel nm addr (fuel + 1) prev (c :: rest)
          = if (nm ≠ [] ∧ nm.isPrefixOf (c :: rest)
              ∧ isBoundary prev nm.head? = true
              ∧ isBoundary nm.getLast? (((c :: rest).drop nm.length).head?) = true) then
              addr ++ subOnceFuel nm addr fuel nm.getLast? ((c :: rest).drop nm.length)
            else c :: subOnceFuel nm addr fuel (some c) rest := rfl
      by_cases hc : (nm ≠ [] ∧ nm.isPrefixOf (c :: rest)
          ∧ isBoundary prev nm.head? = true
          ∧ isBoundary nm.getLast? (((c :: rest).drop nm.length).head?) = true)
      · -- a name match at the head: the output is addr followed by the
        -- transformed remainder
        rw [hO, if_pos hc] at hmatch
        have hprevw : wordO prev = false := by
          have hb := hc.2.2.1
          rw [isBoundary, wordO_head_of_alpha hnm halnm] at hb
          cases hp : wordO prev
          · rfl
          · rw [hp] at hb; exact Bool.noConfusion hb
        have ht'w : wordO ((c :: rest).drop nm.length).head? = false := by
          have hb := hc.2.2.2
          rw [isBoundary, wordO_getLast_of_alpha hnm halnm] at hb
          cases hp : wordO ((c :: rest).drop nm.length).head?
          · rfl
          · rw [hp] at hb; exact Bool.noConfusion hb
        have hlen' : ((c :: rest).drop nm.length).length ≤ fuel := by
          have h1 : 1 ≤ nm.length := List.length_pos.mpr hnm
          have h2 : (c :: rest).length ≤ fuel + 1 := hlen
          rw [List.length_drop]
          omega
        have hRhead := subOnceFuel_head nm addr hnm halnm fuel nm.getLast?
          ((c :: rest).drop nm.length) ht'w
        have hIH : ∀ j, ¬ matchAtPos m nm.getLast?
            (subOnceFuel nm addr fuel nm.getLast? ((c :: rest).drop nm.length)) j := by
          apply ih _ nm.getLast? hlen'
          rcases hsrc with hsrc | hsrc
          · exact Or.inl hsrc
          · right
            intro j hmj
            cases j with
            | zero =>
              obtain ⟨_, _, hb, _⟩ := hmj
              rw [prevCharAt, if_pos rfl, isBoundary,
                wordO_getLast_of_alpha hnm halnm, wordO_head_of_alpha hm halm] at hb
              exact Bool.noConfusion hb
            | succ k =>
              exact hsrc _
                ((matchAtPos_drop m nm.getLast? prev (c :: rest) nm.length (k + 1)
                  (by omega)).mp hmj)
        set R := subOnceFuel nm addr fuel nm.getLast? ((c :: rest).drop nm.length) with hRdef
        obtain ⟨_, hch, hb, ha⟩ := hmatch
        by_cases h1 : i + m.length ≤ addr.length
        · -- the occurrence would lie inside the copied address: it is a
          -- standalone occurrence in addr, which the hypothesis excludes
          apply haocc i
          refine ⟨hm, ?_, ?_, ?_⟩
          · intro k hk
            have hx := hch k hk
            rwa [List.get?_append (by omega)] at hx
          · have hpc : wordO (prevCharAt prev (addr ++ R) i)
                = wordO (prevCharAt none addr i) := by
              unfold prevCharAt
              cases i with
              | zero => rw [if_pos rfl, if_pos rfl, hprevw]; rfl
              | succ j =>
                rw [if_neg (by omega), if_neg (by omega),
                  List.get?_append (by have h2 : 1 ≤ m.length := List.length_pos.mpr hm; omega)]
            rw [isBoundary] at hb ⊢
            rw [← hpc]
            exact hb
          · have hend : wordO ((addr ++ R).get? (i + m.length))
                = wordO (addr.get? (i + m.length)) := by
              by_cases h2 : i + m.length < addr.length
              · rw [List.get?_append h2]
              · have h2' : i + m.length = addr.length := by omega
                rw [h2', List.get?_append_right (le_refl _), Nat.sub_self,
                  List.get?_zero, hRhead,
                  List.get?_eq_none.mpr (le_refl _)]
                rw [ht'w]; rfl
            rw [isBoundary] at ha ⊢
            rw [← hend]
            exact ha
        · by_cases h2 : i < addr.length
          · -- the occurrence would straddle the end of the address block,
            -- but the character right after the block is not a word
            -- character while every occurrence character is a letter
            have hk : addr.length - i < m.length := by omega
            have hchar := hch (addr.length - i) hk
            have hidx : i + (addr.length - i) = addr.length := by omega
            rw [hidx, List.get?_append_right (le_refl _), Nat.sub_self,
              List.get?_zero, hRhead] at hchar
            rcases hmg : m.get? (addr.length - i) with _ | ch
            · rw [hmg] at hchar
              have := List.get?_eq_none.mp hmg
              omega
            · rw [hmg] at hchar
              have hmem := List.get?_mem hmg
              have hwc := isWordChar_of_isAlpha (halm ch hmem)
              rw [hchar] at ht'w
              rw [wordO, hwc] at ht'w
              exact Bool.noConfusion ht'w
          · -- the occurrence would lie inside the transformed remainder
            have hi : addr.length ≤ i := by omega
            rcases Nat.eq_or_lt_of_le hi with hieq | hilt
            · -- at the very start of the remainder: its first character
              -- is not a word character
              have hchar := hch 0 (List.length_pos.mpr hm)
              rw [Nat.add_zero, ← hieq] at hchar
              rw [List.get?_append_right (le_refl _), Nat.sub_self,
                List.get?_zero, hRhead] at hchar
              rcases hmg : m.get? 0 with _ | ch
              · rw [hmg] at hchar
                have := List.get?_eq_none.mp hmg
                have := List.length_pos.mpr hm
                omega
              · rw [hmg] at hchar
                have hmem := List.get?_mem hmg
                have hwc := isWordChar_of_isAlpha (halm ch hmem)
                rw [hchar] at ht'w
                rw [wordO, hwc] at ht'w
                exact Bool.noConfusion ht'w
            · -- strictly inside: shift the occurrence into the remainder
              -- and contradict the induction hypothesis
              apply hIH (i - addr.length)
              have hj1 : 1 ≤ i - addr.length := by omega
              refine ⟨hm, ?_, ?_, ?_⟩
              · intro k hk
                have hx := hch k hk
                rw [List.get?_append_right (by omega)] at hx
                have : i + k - addr.length = i - addr.length + k := by omega
                rwa [this] at hx
              · rw [prevCharAt, if_neg (by omega)]
                rw [prevCharAt, if_neg (by omega)] at hb
                rw [List.get?_append_right (by omega)] at hb
                have : i - 1 - addr.length = i - addr.length - 1 := by omega
                rwa [this] at hb
              · rw [List.get?_append_right (by omega)] at ha
                have : i + m.length - addr.length = i - addr.length + m.length := by omega
                rwa [this] at ha
      · -- no name match at the head: the head character is copied
        rw [hO, if_neg hc] at hmatch
        have hlenr : rest.length ≤ fuel := by simp at hlen; omega
        have hIH : ∀ j, ¬ matchAtPos m (some c) (subOnceFuel nm addr fuel (some c) rest) j := by
          apply ih rest (some c) hlenr
          rcases hsrc with hsrc | hsrc
          · exact Or.inl hsrc
          · exact Or.inr (fun j hmj => hsrc (j + 1) ((matchAtPos_cons m prev c rest j).mpr hmj))
        cases i with
        | succ k =>
          exact hIH k ((matchAtPos_cons m prev c _ k).mp hmatch)
        | zero =>
          -- an occurrence at the start of the output would be an
          -- occurrence at the start of the input
          have hOeq : (c :: subOnceFuel nm addr fuel (some c) rest)
              = subOnceFuel nm addr (fuel + 1) prev (c :: rest) := by rw [hO, if_neg hc]
          rw [hOeq] at hmatch
          rcases subOnceFuel_decomp nm addr (fuel + 1) (c :: rest) prev hlen with
            hid | ⟨j, rem, hj, hmin, heq⟩
          · rw [hid] at hmatch
            rcases hsrc with rfl | hsrc
            · exact hc ((matchAtPos_zero m prev (c :: rest)).mp hmatch)
            · exact hsrc 0 hmatch
          · rw [heq] at hmatch
            have hjpos : 0 < j := by
              rcases Nat.eq_zero_or_pos j with rfl | h
              · exact absurd ((matchAtPos_zero nm prev (c :: rest)).mp hj) hc
              · exact h
            have hjlt := matchAtPos_lt hj
            have hjb : wordO ((c :: rest).get? (j - 1)) = false := by
              obtain ⟨_, _, hbj, _⟩ := hj
              rw [prevCharAt, if_neg (by omega), isBoundary,
                wordO_head_of_alpha hnm halnm] at hbj
              cases hw : wordO ((c :: rest).get? (j - 1))
              · rfl
              · rw [hw] at hbj; exact Bool.noConfusion hbj
            have htakelen : ((c :: rest).take j).length = j := by
              rw [List.length_take]
              omega
            have htake : ∀ k, k < j →
                ((c :: rest).take j ++ addr ++ rem).get? k = (c :: rest).get? k := by
              intro k hk
              rw [List.get?_append (by rw [List.length_append, htakelen]; omega),
                List.get?_append (by rw [htakelen]; omega)]
              exact List.get?_take hk
            obtain ⟨_, hch0, hb0, ha0⟩ := hmatch
            by_cases hjm : j ≤ m.length
            · have hchar := hch0 (j - 1) (by omega)
              rw [Nat.zero_add, htake (j - 1) (by omega)] at hchar
              rcases hmg : m.get? (j - 1) with _ | ch
              · rw [hmg] at hchar
                have := List.get?_eq_none.mp hmg
                omega
              · rw [hmg] at hchar
                have hmem := List.get?_mem hmg
                have hwc := isWordChar_of_isAlpha (halm ch hmem)
                rw [hchar, wordO, hwc] at hjb
                exact Bool.noConfusion hjb
            · have hmt : matchAtPos m prev (c :: rest) 0 := by
                refine ⟨hm, ?_, ?_, ?_⟩
                · intro k hk
                  have hx := hch0 k hk
                  rw [Nat.zero_add, htake k (by omega)] at hx
                  rw [Nat.zero_add]
                  exact hx
                · rw [prevCharAt, if_pos rfl]
                  rw [prevCharAt, if_pos rfl] at hb0
                  exact hb0
                · rw [Nat.zero_add]
                  rw [Nat.zero_add, htake m.length (by omega)] at ha0
                  exact ha0
              rcases hsrc with rfl | hsrc
              · exact hc ((matchAtPos_zero m prev (c :: rest)).mp hmt)
              · exact hsrc 0 hmt

theorem noWordOcc_all {m s : List Char} (h : noWordOcc m s) :
    ∀ i, ¬ matchAtPos m none s i :=
  fun i hm => h i (matchAtPos_lt hm) hm

theorem fold_no_occ (m : List Char) (hm : m ≠ []) (halm : AllAlpha m) :
    ∀ (l : List (String × String)) (t : String),
      (∀ p ∈ l, p.1.data ≠ [] ∧ AllAlpha p.1.data) →
      (∀ p ∈ l, p.2.data ≠ []) →
      (∀ p ∈ l, ∀ i, ¬ matchAtPos m none p.2.data i) →
      ((∃ p ∈ l, p.1.data = m) ∨ ∀ i, ¬ matchAtPos m none t.data i) →
      ∀ i, ¬ matchAtPos m none
        ((l.foldl (fun acc kv => subOnce kv.1 kv.2 acc) t).data) i := by
  intro l
  induction l with
  | nil =>
    intro t _ _ _ hd i
    rcases hd with ⟨p, hp, _⟩ | hd
    · exact absurd hp (List.not_mem_nil p)
    · exact hd i
  | cons kv l' ihl =>
    intro t hn ha hocc hd
    simp only [List.foldl_cons]
    apply ihl
    · intro p hp; exact hn p (by simp [hp])
    · intro p hp; exact ha p (by simp [hp])
    · intro p hp; exact hocc p (by simp [hp])
    · by_cases hkv : kv.1.data = m
      · right
        intro i
        exact subOnceFuel_no_occ kv.1.data kv.2.data m (hn kv (by simp)).1 (hn kv (by simp)).2
          hm halm (ha kv (by simp)) (hocc kv (by simp))
          t.data.length t.data none (le_refl _) (Or.inl hkv.symm) i
      · by_cases hex : ∃ p ∈ l', p.1.data = m
        · exact Or.inl hex
        · right
          rcases hd with ⟨p, hp, hpm⟩ | hd
          · rcases List.mem_cons.mp hp with rfl | hp'
            · exact absurd hpm hkv
            · exact absurd ⟨p, hp', hpm⟩ hex
          · intro i
            exact subOnceFuel_no_occ kv.1.data kv.2.data m (hn kv (by simp)).1
              (hn kv (by simp)).2 hm halm (ha kv (by simp)) (hocc kv (by simp))
              t.data.length t.data none (le_refl _) (Or.inr hd) i

theorem fold_id (l : List (String × String)) (t : String)
    (h : ∀ p ∈ l, ∀ i, ¬ matchAtPos p.1.data none t.data i) :
    l.foldl (fun acc kv => subOnce kv.1 kv.2 acc) t = t := by
  induction l with
  | nil => rfl
  | cons kv l' ihl =>
    simp only [List.foldl_cons]
    have hstep : subOnce kv.1 kv.2 t = t := by
      unfold subOnce
      rw [subOnceFuel_id kv.1.data kv.2.data t.data.length t.data none (le_refl _)
        (h kv (by simp))]
    rw [hstep]
    exact ihl (fun p hp => h p (by simp [hp]))

/-- C5, amended: alias names are processed in descending length order
(longer names first, so a longer alias is matched before any shorter one
that is a substring of it, and the processing order is a permutation of
the registry); and substitution is idempotent provided every alias name
is a nonempty all-letter word, every address is nonempty, and no address
contains a whole-word occurrence of any alias name.  Without that proviso
a second pass can change the text again (see the counterexample). -/
theorem c5_amended (aliases : List (String × String))
    (hnames : ∀ p ∈ aliases, p.1.data ≠ [] ∧ AllAlpha p.1.data)
    (haddrs : ∀ p ∈ aliases, p.2.data ≠ [])
    (hocc : ∀ p ∈ aliases, ∀ q ∈ aliases, noWordOcc q.1.data p.2.data) :
    (∀ text : String,
      substitute_aliases_in_text aliases (substitute_aliases_in_text aliases text)
        = substitute_aliases_in_text aliases text) ∧
    List.Pairwise (fun a b : String × String => b.1.length ≤ a.1.length)
      (sortAliases aliases) ∧
    (∀ x : String × String, x ∈ sortAliases aliases ↔ x ∈ aliases) := by
  have hmem : ∀ x : String × String, x ∈ sortAliases aliases ↔ x ∈ aliases :=
    fun x => (List.perm_insertionSort (fun a b => b.1.length ≤ a.1.length) aliases).mem_iff
  refine ⟨?_, ?_, hmem⟩
  · intro text
    unfold substitute_aliases_in_text
    apply fold_id
    intro p hp i
    have hpa := (hmem p).mp hp
    exact fold_no_occ p.1.data (hnames p hpa).1 (hnames p hpa).2 (sortAliases aliases) text
      (fun q hq => hnames q ((hmem q).mp hq))
      (fun q hq => haddrs q ((hmem q).mp hq))
      (fun q hq => noWordOcc_all (hocc q ((hmem q).mp hq) p hpa))
      (Or.inl ⟨p, hp, rfl⟩) i
  · haveI : IsTotal (String × String) (fun a b => b.1.length ≤ a.1.length) :=
      ⟨fun a b => (Nat.le_total b.1.length a.1.length).imp id id⟩
    haveI : IsTrans (String × String) (fun a b => b.1.length ≤ a.1.length) :=
      ⟨fun _ _ _ hab hbc => Nat.le_trans hbc hab⟩
    exact List.sorted_insertionSort (fun a b => b.1.length ≤ a.1.length) aliases

/-- C5, witness: a two-alias registry with letter-only names and
dotted-quad addresses satisfies the hypotheses, giving idempotence for
every text. -/
theorem c5_amended_witness :
    (∀ text : String,
      substitute_aliases_in_text [("gateway", "10.0.0.1"), ("webserver", "10.0.0.2")]
        (substitute_aliases_in_text [("gateway", "10.0.0.1"), ("webserver", "10.0.0.2")] text)
        = substitute_aliases_in_text [("gateway", "10.0.0.1"), ("webserver", "10.0.0.2")] text) ∧
    List.Pairwise (fun a b : String × String => b.1.length ≤ a.1.length)
      (sortAliases [("gateway", "10.0.0.1"), ("webserver", "10.0.0.2")]) ∧
    (∀ x : String × String,
      x ∈ sortAliases [("gateway", "10.0.0.1"), ("webserver", "10.0.0.2")]
        ↔ x ∈ [("gateway", "10.0.0.1"), ("webserver", "10.0.0.2")]) :=
  c5_amended [("gateway", "10.0.0.1"), ("webserver", "10.0.0.2")]
    (by decide) (by decide) (by decide)

/-- C5, counterexample: with the reachable registry state
long maps to 10.0.0.7 and ab maps to long (alias addresses are not
validated), substituting "ab" once gives "long" and a second pass turns
it into "10.0.0.7", so substitution is not idempotent for every
alias-registry state. -/
theorem c5_counterexample :
    substitute_aliases_in_text [("long", "10.0.0.7"), ("ab", "long")]
      (substitute_aliases_in_text [("long", "10.0.0.7"), ("ab", "long")] "ab")
    ≠ substitute_aliases_in_text [("long", "10.0.0.7"), ("ab", "long")] "ab" := by
  decide
